import Mathlib

/-!
# Verification of the `TSMap` ordered-map implementation (`src/index.ts`)

This file shallowly embeds the later `TSMap<K, V>` class of the repository
(the variant the specification targets) and proves or refutes the frozen
claims about it.

The embedding decisions:

* The class state `{ _keys, _values, length }` becomes the structure
  `TSMap` with fields `_keys : List K`, `_values : List V`, `length : Nat`.
* `Array.prototype.indexOf` (first index of an element under strict
  equality, `-1` when absent) becomes `indexOfO : List K → K → Option Nat`,
  `none` standing for `-1`.
* `Array.prototype.splice(i, 0, x)` clamps the index to the array length
  and always inserts; it becomes `spliceIns`.
* JavaScript's `undefined` is an ordinary value of the dynamic value
  domain `JVal` used for the JSON-facing operations, so `get`'s behaviour
  on a miss is representable faithfully.
* Out-of-range reads `a[i]` evaluate to `undefined`; comparisons of a key
  with `undefined` (`==`, `<`, `>`) are all false for the key types used
  here, which `optEqK`, `optLtK`, `optGtK` capture.
-/

namespace TSSpec

/-- The state of a `TSMap<K, V>` instance: the two parallel private arrays
and the public `length` attribute. -/
structure TSMap (K V : Type) where
  _keys : List K
  _values : List V
  length : Nat
deriving Repr, DecidableEq

/-- `Array.prototype.indexOf`: index of the first occurrence, `none` for
JavaScript's `-1`. -/
def indexOfO {K : Type} [DecidableEq K] : List K → K → Option Nat
  | [], _ => none
  | x :: xs, k => if x = k then some 0 else (indexOfO xs k).map (· + 1)

/-- `Array.prototype.splice(i, 0, x)`: insert `x` at position `i`, clamped
to the array length (JavaScript clamps out-of-range start indices). -/
def spliceIns {α : Type} (i : Nat) (x : α) (l : List α) : List α :=
  l.insertIdx (min i l.length) x

namespace TSMap

variable {K V : Type} [DecidableEq K]

/-- `new TSMap()` with no input: `_keys = []`, `_values = []`, `length = 0`. -/
def empty : TSMap K V := ⟨[], [], 0⟩

/-- `keys()`: a copy of `_keys` (copying is the identity on pure lists). -/
def keys (m : TSMap K V) : List K := m._keys

/-- `values()`: a copy of `_values`. -/
def values (m : TSMap K V) : List V := m._values

/-- `size()`: returns the `length` attribute. -/
def size (m : TSMap K V) : Nat := m.length

/-- `has(key)`: `this._keys.indexOf(key) > -1`. -/
def has (m : TSMap K V) (k : K) : Bool := (indexOfO m._keys k).isSome

/-- `get(key)` as a partial lookup: `some` of `_values[i]` when
`indexOf` hits and the read is in range, `none` otherwise (both of which
are JavaScript's `undefined`). -/
def get? (m : TSMap K V) (k : K) : Option V :=
  match indexOfO m._keys k with
  | some i => m._values[i]?
  | none => none

/-- `set(key, value)`: overwrite `_values[i]` in place when the key
exists; otherwise push onto both arrays and update `length` to the new
`_values.length`. -/
def set (m : TSMap K V) (k : K) (v : V) : TSMap K V :=
  match indexOfO m._keys k with
  | some i => { m with _values := m._values.set i v }
  | none =>
      { _keys := m._keys ++ [k]
        _values := m._values ++ [v]
        length := m._values.length + 1 }

/-- `clear()`: truncate both arrays and `length` to `0`. -/
def clear (_m : TSMap K V) : TSMap K V := ⟨[], [], 0⟩

/-- `delete(key)`: on a hit, splice the entry out of both arrays, set
`length` to the new `_keys.length` and return `true`; on a miss return
`false`. The result pairs the new state with the returned boolean. -/
def delete (m : TSMap K V) (k : K) : TSMap K V × Bool :=
  match indexOfO m._keys k with
  | some i =>
      (⟨m._keys.eraseIdx i, m._values.eraseIdx i, (m._keys.eraseIdx i).length⟩, true)
  | none => (m, false)

/-- `new TSMap(inputMap)`: apply `set(v[0], v[1])` to each input pair in
order, starting from the empty state. -/
def ofList (l : List (K × V)) : TSMap K V :=
  l.foldl (fun m kv => m.set kv.1 kv.2) empty

/-- `filter(callbackfn)`: iterate over a snapshot `[...this._keys]` with
indices; delete every key on which the callback returns exactly `false`.
The callback receives `this.get(key)` (possibly `undefined`, hence
`Option V`), the key and the snapshot index. -/
def filter (m : TSMap K V) (f : Option V → K → Nat → Bool) : TSMap K V :=
  m._keys.enum.foldl
    (fun acc ik => if f (acc.get? ik.2) ik.2 ik.1 = false then (acc.delete ik.2).1 else acc)
    m

end TSMap

/-- `key == a[i]` for a possibly out-of-range read: comparison with
`undefined` is false. -/
def optEqK {K : Type} [DecidableEq K] (k : K) : Option K → Bool
  | some x => k = x
  | none => false

/-- `key < a[i]` for a possibly out-of-range read: comparison with
`undefined` is false. -/
def optLtK {K : Type} [LinearOrder K] (k : K) : Option K → Bool
  | some x => k < x
  | none => false

/-- `key > a[i]` for a possibly out-of-range read: comparison with
`undefined` is false. -/
def optGtK {K : Type} [LinearOrder K] (k : K) : Option K → Bool
  | some x => x < k
  | none => false

/-- The recursive core of `sortedSet(key, value, startVal, endVal)` after
the empty-map branch: the five guarded branches and the binary-search
recursion, exactly as in the source. -/
def sortedSetRec {K V : Type} [DecidableEq K] [LinearOrder K]
    (key : K) (value : V) (m : TSMap K V) (start e : Nat) : TSMap K V :=
  if optEqK key m._keys[start]? then
    { m with _values := spliceIns start value m._values }
  else if optEqK key m._keys[e]? then
    { m with _values := spliceIns e value m._values }
  else if optGtK key m._keys[e]? then
    { m with _keys := spliceIns (e + 1) key m._keys
             _values := spliceIns (e + 1) value m._values }
  else if optLtK key m._keys[start]? then
    { m with _keys := spliceIns start key m._keys
             _values := spliceIns start value m._values }
  else if h : start ≥ e then m
  else
    let mid := start + (e - start) / 2
    if optLtK key m._keys[mid]? then sortedSetRec key value m start (mid - 1)
    else if optGtK key m._keys[mid]? then sortedSetRec key value m (mid + 1) e
    else m
termination_by e - start
decreasing_by
  · omega
  · omega

/-- `sortedSet(key, value, startVal?, endVal?)`: `start` defaults to `0`,
`end` to `length - 1` (the array length, not the attribute); an empty
map takes the push-both branch. -/
def TSMap.sortedSet {K V : Type} [DecidableEq K] [LinearOrder K]
    (m : TSMap K V) (key : K) (value : V)
    (startVal : Option Nat) (endVal : Option Nat) : TSMap K V :=
  let len := m._keys.length
  if len = 0 then
    { m with _keys := m._keys ++ [key], _values := m._values ++ [value] }
  else
    sortedSetRec key value m (startVal.getD 0) (endVal.getD (len - 1))

/-- The invariant I1 of the data model: the `length` attribute and the two
parallel arrays agree in length. -/
def Inv {K V : Type} (m : TSMap K V) : Prop :=
  m.length = m._keys.length ∧ m._keys.length = m._values.length

instance {K V : Type} (m : TSMap K V) : Decidable (Inv m) := by
  unfold Inv; infer_instance

/-- A public mutating call of the `set`/`delete`/`clear` fragment, for
stating properties over arbitrary operation sequences. -/
inductive MOp (K V : Type) where
  | setOp (k : K) (v : V)
  | delOp (k : K)
  | clearOp

/-- Apply one `set`/`delete`/`clear` call to a map state. -/
def applyOp {K V : Type} [DecidableEq K] (m : TSMap K V) : MOp K V → TSMap K V
  | .setOp k v => m.set k v
  | .delOp k => (m.delete k).1
  | .clearOp => m.clear

/-- Run a sequence of `set`/`delete`/`clear` calls on an initially empty
map. -/
def runOps {K V : Type} [DecidableEq K] (ops : List (MOp K V)) : TSMap K V :=
  ops.foldl applyOp TSMap.empty

/-- Run a sequence of default-argument `sortedSet` calls on an initially
empty map. -/
def sortedRun {K V : Type} [DecidableEq K] [LinearOrder K]
    (l : List (K × V)) : TSMap K V :=
  l.foldl (fun m kv => m.sortedSet kv.1 kv.2 none none) TSMap.empty

/-! ## The dynamic value domain for the JSON-facing operations

`fromJSON`, `toJSON` and `get` traffic in untyped JavaScript values.
`JVal` is the fragment needed here: `undefined`, the JSON primitives,
arrays, plain objects (ordered own-property lists; real JavaScript
objects have pairwise-distinct property names, so an ordered
name/value list enumerated in `Object.keys` order is a faithful model,
and reading `jsonObject[property]` coincides with the enumerated pair),
and `TSMap` instances occurring as nested values (`vmap`, carrying the
instance state).  `fromJSON`'s input is a parsed-JSON object, so its
property enumeration `jsEntries` is defined on the JSON fragment
(objects and arrays, whose `Object.keys` are the indices in order); the
other constructors have no enumerable own properties in this model. -/

inductive JVal where
  | undefined
  | null
  | num (n : Int)
  | str (s : String)
  | bool (b : Bool)
  | arr (xs : List JVal)
  | obj (fs : List (String × JVal))
  | vmap (ks : List String) (vs : List JVal) (len : Nat)

/-- A `TSMap` whose values are dynamic JavaScript values. -/
abbrev TSMapJ := TSMap String JVal

/-- View a map state as a dynamic value (a `TSMap` instance). -/
def JVal.ofM (m : TSMapJ) : JVal := .vmap m._keys m._values m.length

/-- `get(key)` on a dynamic-valued map: JavaScript's `undefined` on a
miss, exactly as `i > -1 ? this._values[i] : undefined`. -/
def TSMap.jsGet (m : TSMapJ) (k : String) : JVal := (m.get? k).getD .undefined

/-- `value !== null && typeof value === 'object'` (arrays and `TSMap`
instances are object-typed in JavaScript; `null` is excluded by the
explicit check). -/
def isObjTy : JVal → Bool
  | .arr _ => true
  | .obj _ => true
  | .vmap _ _ _ => true
  | _ => false

/-- `Array.isArray(value)`. -/
def isArr : JVal → Bool
  | .arr _ => true
  | _ => false

/-- The element list of an array value (empty for non-arrays). -/
def arrElems : JVal → List JVal
  | .arr xs => xs
  | _ => []

/-- `Object.keys` enumeration of an array: index keys `"0"`, `"1"`, …
paired with the elements. -/
def arrEntries (i : Nat) : List JVal → List (String × JVal)
  | [] => []
  | x :: xs => (toString i, x) :: arrEntries (i + 1) xs

/-- `Object.keys(jsonObject)` paired with the property reads
`jsonObject[property]` (the `hasOwnProperty` guard is always true for
`Object.keys` results). Only parsed-JSON inputs (objects and arrays)
have enumerable own properties in this model. -/
def jsEntries : JVal → List (String × JVal)
  | .obj fs => fs
  | .arr xs => arrEntries 0 xs
  | _ => []

/-! Size measures for the well-founded recursions below (strings and
numbers weigh nothing; only the nesting structure counts). -/

mutual

def vsize : JVal → Nat
  | .arr xs => 1 + lsize xs
  | .obj fs => 1 + fsize fs
  | .vmap ks vs _ => 2 + ks.length + lsize vs
  | _ => 1

def lsize : List JVal → Nat
  | [] => 0
  | x :: xs => 1 + vsize x + lsize xs

def fsize : List (String × JVal) → Nat
  | [] => 0
  | (_, x) :: fs => 1 + vsize x + fsize fs

end

/-! ## `fromJSON(jsonObject, convertObjs)`

The inner closure `setProperty` and the `Object.keys(...).forEach`
loop of the source.  Note the second branch of `setProperty`
(`Array.isArray(value) && convertObjs`) is unreachable: an array also
satisfies the preceding `typeof value === 'object'` test, so with
`convertObjs` set, arrays are handed to `new TSMap().fromJSON(value,
true)` like plain objects.  The branch is reproduced anyway. -/

mutual

/-- `setProperty(value)` with captured flag `convertObjs = c`. -/
def setProp (c : Bool) (v : JVal) : JVal :=
  if isObjTy v && c then JVal.ofM (fromJEmpty v)
  else if isArr v && c then JVal.arr (setPropList c (arrElems v))
  else v
termination_by 3 * vsize v + 1
decreasing_by
  · omega
  · have hlt : 3 * lsize (arrElems v) + 2 < 3 * vsize v + 1 := by
      cases v <;> simp [arrElems, vsize, lsize] <;> omega
    exact hlt

/-- `value.map(v => setProperty(v))` of the unreachable array branch. -/
def setPropList (c : Bool) (l : List JVal) : List JVal :=
  match l with
  | [] => []
  | x :: xs => setProp c x :: setPropList c xs
termination_by 3 * lsize l + 2
decreasing_by
  · simp only [lsize]; omega
  · simp only [lsize]; omega

/-- `new TSMap<any, any>().fromJSON(value, true)`. -/
def fromJEmpty (v : JVal) : TSMapJ :=
  fromJFold true TSMap.empty (jsEntries v)
termination_by 3 * vsize v
decreasing_by
  have harr : ∀ (i : Nat) (xs : List JVal), fsize (arrEntries i xs) = lsize xs := by
    intro i xs
    induction xs generalizing i with
    | nil => rfl
    | cons x xs ih => simp [arrEntries, fsize, lsize, ih]
  cases v <;> simp [jsEntries, vsize, fsize, harr] <;> omega

/-- The `Object.keys(jsonObject).forEach(property => t.set(property,
setProperty(jsonObject[property])))` loop, threading the mutated map. -/
def fromJFold (c : Bool) (m : TSMapJ) (ents : List (String × JVal)) : TSMapJ :=
  match ents with
  | [] => m
  | (p, x) :: rest => fromJFold c (m.set p (setProp c x)) rest
termination_by 3 * fsize ents + 2
decreasing_by
  · simp only [fsize]; omega
  · simp only [fsize]; omega

end

/-- `fromJSON(jsonObject, convertObjs)`: iterate the object's own
enumerable properties in order, `set`ting each (the method mutates and
returns `this`). -/
def TSMap.fromJSON (m : TSMapJ) (j : JVal) (c : Bool) : TSMapJ :=
  fromJFold c m (jsEntries j)

/-- `obj[k] = v` on a plain object: overwrite in place if the property
exists (position kept), else append. -/
def objAssign : List (String × JVal) → String → JVal → List (String × JVal)
  | [], k, v => [(k, v)]
  | (k', v') :: fs, k, v =>
      if k' = k then (k, v) :: fs else (k', v') :: objAssign fs k v

/-! ## `toJSON()`

The inner closure `getValue` and the `keys().forEach` loop building the
output object. -/

mutual

/-- `getValue(value)`: recursively unwrap `TSMap` instances via their
`toJSON`, map over arrays, pass anything else through. -/
def getValue (v : JVal) : JVal :=
  match v with
  | .vmap ks vs len => JVal.obj (toJSONFold ⟨ks, vs, len⟩ ks [])
  | .arr xs => JVal.arr (getValueList xs)
  | v => v
termination_by 3 * vsize v
decreasing_by
  · simp only [vsize]; omega
  · simp only [vsize]; omega

/-- `value.map(v => getValue(v))` for array values. -/
def getValueList (l : List JVal) : List JVal :=
  match l with
  | [] => []
  | x :: xs => getValue x :: getValueList xs
termination_by 3 * lsize l + 1
decreasing_by
  · simp only [lsize]; omega
  · simp only [lsize]; omega

/-- `t.keys().forEach(k => { obj[String(k)] = getValue(t.get(k)) })`
(keys are already strings here, so `String(k)` is the key itself). -/
def toJSONFold (m : TSMapJ) (ks : List String) (acc : List (String × JVal)) :
    List (String × JVal) :=
  match ks with
  | [] => acc
  | k :: ks => toJSONFold m ks (objAssign acc k (getValue (m.jsGet k)))
termination_by 3 * lsize m._values + ks.length + 4
decreasing_by
  · have hidx : ∀ (l : List JVal) (i : Nat), vsize (l[i]?.getD JVal.undefined) ≤ 1 + lsize l := by
      intro l
      induction l with
      | nil => intro _; simp [vsize, lsize]
      | cons y ys ih =>
          intro i
          cases i with
          | zero => simp only [List.getElem?_cons_zero, Option.getD_some, lsize]; omega
          | succ j =>
              simp only [List.getElem?_cons_succ, lsize]
              have := ih j
              omega
    have hget : vsize (m.jsGet k) ≤ 1 + lsize m._values := by
      unfold TSMap.jsGet TSMap.get?
      cases indexOfO m._keys k with
      | none => simp [vsize]
      | some i => exact hidx m._values i
    simp only [List.length_cons]
    omega
  · simp only [List.length_cons]
    omega

end

/-- `toJSON()`: the object assembled by the `keys().forEach` loop. -/
def TSMap.toJSON (m : TSMapJ) : JVal := JVal.obj (toJSONFold m m._keys [])

/-! Dynamic values that are JSON-representable scalars or nested `TSMap`
instances of such, with the nested instance states well formed (distinct
keys, aligned lengths): the domain of the amended round-trip property. -/

mutual

def goodV : JVal → Bool
  | .null => true
  | .num _ => true
  | .str _ => true
  | .bool _ => true
  | .vmap ks vs len =>
      decide ks.Nodup && decide (len = ks.length) && decide (ks.length = vs.length)
        && goodL vs
  | _ => false

def goodL : List JVal → Bool
  | [] => true
  | x :: xs => goodV x && goodL xs

end

/-! ## Reference values and `clone()`

`clone()` in the source is `new TSMap(this.entries())`: the entry pairs
are fresh arrays, but the values themselves are copied by reference.  To
observe reference sharing the value domain `HVal` includes an explicit
reference (`ref a`, an address into a heap of nested maps); reading a
nested map goes through the heap, and mutating the nested map a
reference points to is a heap update at that address. -/

inductive HVal where
  | num (n : Int)
  | ref (a : Nat)
  | undefined
deriving Repr, DecidableEq

/-- A `TSMap` whose values are numbers or references to nested maps. -/
abbrev TSMapH := TSMap String HVal

/-- A heap of nested maps, indexed by address. -/
abbrev Heap := List (TSMap String Int)

/-- `get(key)` on a reference-valued map (`undefined` on a miss). -/
def TSMap.hGet (m : TSMapH) (k : String) : HVal := (m.get? k).getD .undefined

/-- `entries()`: `this.keys().map(k => [k, this.get(k)])`. -/
def TSMap.entries (m : TSMapH) : List (String × HVal) :=
  m._keys.map fun k => (k, m.hGet k)

/-- `clone()`: `new TSMap(this.entries())`. -/
def TSMap.clone (m : TSMapH) : TSMapH := TSMap.ofList m.entries

/-- Read `m.get(k1).get(k2)` where `m.get(k1)` is expected to be a
(nested-map) reference: dereference through the heap. -/
def heapRead (h : Heap) (m : TSMapH) (k1 k2 : String) : Option Int :=
  match m.hGet k1 with
  | .ref a =>
      match h[a]? with
      | some inner => inner.get? k2
      | none => none
  | _ => none

/-! ## Basic lemmas about the embedded operations -/

theorem indexOfO_eq_none_iff {K : Type} [DecidableEq K] {l : List K} {k : K} :
    indexOfO l k = none ↔ k ∉ l := by
  induction l with
  | nil => simp [indexOfO]
  | cons x xs ih =>
      rw [indexOfO]
      by_cases hx : x = k
      · subst hx; simp
      · rw [if_neg hx]
        simp only [Option.map_eq_none', ih, List.mem_cons]
        constructor
        · intro h hk
          rcases hk with rfl | hk
          · exact hx rfl
          · exact h hk
        · intro h hk
          exact h (Or.inr hk)

theorem indexOfO_spec {K : Type} [DecidableEq K] {l : List K} {k : K} {i : Nat}
    (h : indexOfO l k = some i) : i < l.length ∧ l[i]? = some k := by
  induction l generalizing i with
  | nil => simp [indexOfO] at h
  | cons x xs ih =>
      rw [indexOfO] at h
      by_cases hx : x = k
      · rw [if_pos hx] at h
        subst hx
        have h0 : i = 0 := by simpa using h.symm
        subst h0
        simp
      · rw [if_neg hx] at h
        cases hj : indexOfO xs k with
        | none => rw [hj] at h; simp at h
        | some j =>
            rw [hj] at h
            simp only [Option.map_some', Option.some.injEq] at h
            subst h
            rcases ih hj with ⟨hlt, hget⟩
            exact ⟨by simpa using Nat.succ_lt_succ hlt, by simpa using hget⟩

theorem inv_empty {K V : Type} : Inv (TSMap.empty : TSMap K V) :=
  ⟨rfl, rfl⟩

theorem inv_set {K V : Type} [DecidableEq K] {m : TSMap K V} (h : Inv m) (k : K) (v : V) :
    Inv (m.set k v) := by
  obtain ⟨h1, h2⟩ := h
  unfold TSMap.set
  cases hidx : indexOfO m._keys k with
  | none =>
      refine ⟨?_, ?_⟩ <;> simp <;> omega
  | some i =>
      refine ⟨?_, ?_⟩ <;> simp <;> omega

theorem inv_delete {K V : Type} [DecidableEq K] {m : TSMap K V} (h : Inv m) (k : K) :
    Inv (m.delete k).1 := by
  obtain ⟨h1, h2⟩ := h
  unfold TSMap.delete
  cases hidx : indexOfO m._keys k with
  | none => exact ⟨h1, h2⟩
  | some i =>
      have hi := (indexOfO_spec hidx).1
      refine ⟨rfl, ?_⟩
      simp only [List.length_eraseIdx]
      rw [if_pos hi, if_pos (by omega : i < m._values.length)]
      omega

theorem inv_clear {K V : Type} [DecidableEq K] (m : TSMap K V) : Inv m.clear :=
  ⟨rfl, rfl⟩

theorem inv_foldl {K V α : Type} (f : TSMap K V → α → TSMap K V)
    (hf : ∀ m a, Inv m → Inv (f m a)) :
    ∀ (l : List α) (m : TSMap K V), Inv m → Inv (l.foldl f m) := by
  intro l
  induction l with
  | nil => intro _ hm; exact hm
  | cons a as ih => intro m hm; exact ih _ (hf m a hm)

theorem inv_filter {K V : Type} [DecidableEq K] {m : TSMap K V} (h : Inv m)
    (f : Option V → K → Nat → Bool) : Inv (m.filter f) := by
  unfold TSMap.filter
  refine inv_foldl _ ?_ _ _ h
  intro m' ik hm'
  by_cases hc : f (m'.get? ik.2) ik.2 ik.1 = false
  · simpa [hc] using inv_delete hm' ik.2
  · simpa [hc] using hm'

theorem inv_ofList {K V : Type} [DecidableEq K] (l : List (K × V)) : Inv (TSMap.ofList l) :=
  inv_foldl _ (fun _ kv hm => inv_set hm kv.1 kv.2) l TSMap.empty inv_empty

theorem inv_fromJFold (c : Bool) {m : TSMapJ} (h : Inv m) (ents : List (String × JVal)) :
    Inv (fromJFold c m ents) := by
  induction ents generalizing m with
  | nil => rw [fromJFold]; exact h
  | cons e rest ih =>
      rcases e with ⟨p, x⟩
      rw [fromJFold]
      exact ih (inv_set h p (setProp c x))

theorem inv_fromJSON (c : Bool) {m : TSMapJ} (h : Inv m) (j : JVal) :
    Inv (m.fromJSON j c) :=
  inv_fromJFold c h (jsEntries j)

theorem spliceIns_length {α : Type} (i : Nat) (x : α) (l : List α) :
    (spliceIns i x l).length = l.length + 1 := by
  unfold spliceIns
  exact List.length_insertIdx _ _ (Nat.min_le_right _ _)

theorem optEqK_true_iff {K : Type} [DecidableEq K] {k : K} {o : Option K} :
    optEqK k o = true ↔ o = some k := by
  cases o with
  | none => simp [optEqK]
  | some x =>
      simp only [optEqK, decide_eq_true_eq, Option.some.injEq]
      exact ⟨fun h => h.symm, fun h => h.symm⟩

theorem optLtK_true_iff {K : Type} [LinearOrder K] {k : K} {o : Option K} :
    optLtK k o = true ↔ ∃ x, o = some x ∧ k < x := by
  cases o with
  | none => simp [optLtK]
  | some x => simp [optLtK]

theorem optGtK_true_iff {K : Type} [LinearOrder K] {k : K} {o : Option K} :
    optGtK k o = true ↔ ∃ x, o = some x ∧ x < k := by
  cases o with
  | none => simp [optGtK]
  | some x => simp [optGtK]

theorem sortedSetRec_length_attr {K V : Type} [DecidableEq K] [LinearOrder K]
    (key : K) (value : V) (m : TSMap K V) (s e : Nat) :
    (sortedSetRec key value m s e).length = m.length := by
  induction s, e using sortedSetRec.induct key value m with
  | case1 s e h1 => rw [sortedSetRec]; simp [h1]
  | case2 s e h1 h2 => rw [sortedSetRec]; simp [h1, h2]
  | case3 s e h1 h2 h3 => rw [sortedSetRec]; simp [h1, h2, h3]
  | case4 s e h1 h2 h3 h4 => rw [sortedSetRec]; simp [h1, h2, h3, h4]
  | case5 s e h1 h2 h3 h4 h5 => rw [sortedSetRec]; simp [h1, h2, h3, h4, h5]
  | case6 s e h1 h2 h3 h4 h5 mid h6 ih =>
      rw [sortedSetRec]
      simp only [h1, h2, h3, h4, h5, h6, if_true, if_false, Bool.false_eq_true, dite_eq_ite]
      simpa [mid] using ih
  | case7 s e h1 h2 h3 h4 h5 mid h6 h7 ih =>
      rw [sortedSetRec]
      simp only [h1, h2, h3, h4, h5, h6, h7, if_true, if_false, Bool.false_eq_true, dite_eq_ite]
      simpa [mid] using ih
  | case8 s e h1 h2 h3 h4 h5 mid h6 h7 =>
      rw [sortedSetRec]
      simp [h1, h2, h3, h4, h5, h6, h7]

/-! ## Claim theorems -/

/-- C10 (confirmed): no branch of `sortedSet` updates the `length`
attribute: for every map state and every `sortedSet` call — with any
explicit or defaulted `start`/`end` arguments, hence covering the
empty-map append branch and both key-splicing branches — `length`, and
therefore `size()`, is unchanged by the call. -/
theorem claim_C10 {K V : Type} [DecidableEq K] [LinearOrder K]
    (m : TSMap K V) (k : K) (v : V) (sv ev : Option Nat) :
    (m.sortedSet k v sv ev).length = m.length
    ∧ (m.sortedSet k v sv ev).size = m.size := by
  have hmain : (m.sortedSet k v sv ev).length = m.length := by
    unfold TSMap.sortedSet
    by_cases h0 : m._keys.length = 0
    · simp [h0]
    · simp [h0, sortedSetRec_length_attr]
  exact ⟨hmain, hmain⟩

/-- C7 (confirmed): after every sequence of `set`, `delete` and `clear`
calls starting from an empty map, `size()`, `keys().length` and
`values().length` agree. -/
theorem claim_C7 {K V : Type} [DecidableEq K] (ops : List (MOp K V)) :
    (runOps ops).size = (runOps ops).keys.length
    ∧ (runOps ops).keys.length = (runOps ops).values.length := by
  have h : Inv (runOps ops) := by
    refine inv_foldl applyOp ?_ ops _ inv_empty
    intro m op hm
    cases op with
    | setOp k v => exact inv_set hm k v
    | delOp k => exact inv_delete hm k
    | clearOp => exact inv_clear m
  exact ⟨h.1, h.2⟩

/-- C1 (corrected) — counterexample to the claim as stated: the empty map
satisfies invariant I1, yet after the completed `sortedSet(1, "a")` call
the `length` attribute is still `0` while `keys` has one element, so
`sortedSet` does not preserve `len(keys) == len(values) == length`. -/
theorem claim_C1_cex :
    Inv (TSMap.empty : TSMap Int String)
    ∧ ¬ Inv ((TSMap.empty : TSMap Int String).sortedSet 1 "a" none none) := by
  constructor
  · exact inv_empty
  · intro h
    exact absurd h.1 (by decide)

/-- C1 (amended): invariant I1 — `len(keys) == len(values) == length` —
holds for a freshly constructed map and is preserved by every completed
`set`, `delete`, `clear`, `filter` and `fromJSON` call and by
construction from an entry list; `sortedSet` (excluded by the
counterexample) is the one mutating operation that does not preserve
it. -/
theorem claim_C1_amended :
    (∀ (K V : Type), Inv (TSMap.empty : TSMap K V))
    ∧ (∀ (K V : Type) (_inst : DecidableEq K) (m : TSMap K V) (k : K) (v : V),
        Inv m → Inv (m.set k v))
    ∧ (∀ (K V : Type) (_inst : DecidableEq K) (m : TSMap K V) (k : K),
        Inv m → Inv (m.delete k).1)
    ∧ (∀ (K V : Type) (_inst : DecidableEq K) (m : TSMap K V), Inv m.clear)
    ∧ (∀ (K V : Type) (_inst : DecidableEq K) (m : TSMap K V)
        (f : Option V → K → Nat → Bool), Inv m → Inv (m.filter f))
    ∧ (∀ (K V : Type) (_inst : DecidableEq K) (l : List (K × V)), Inv (TSMap.ofList l))
    ∧ (∀ (c : Bool) (m : TSMapJ) (j : JVal), Inv m → Inv (m.fromJSON j c)) :=
  ⟨fun _ _ => inv_empty,
   fun _ _ _ _ k v h => inv_set h k v,
   fun _ _ _ _ k h => inv_delete h k,
   fun _ _ _ m => inv_clear m,
   fun _ _ _ _ f h => inv_filter h f,
   fun _ _ _ l => inv_ofList l,
   fun c _ j h => inv_fromJSON c h j⟩

/-- Witness for the amended C1 at concrete inputs. -/
theorem claim_C1_amended_witness :
    Inv ((⟨[1], [10], 1⟩ : TSMap Int Int).set 2 20)
    ∧ Inv (((⟨[1], [10], 1⟩ : TSMap Int Int).delete 1).1)
    ∧ Inv ((⟨[1], [10], 1⟩ : TSMap Int Int).filter fun _ _ _ => true)
    ∧ Inv ((TSMap.empty : TSMapJ).fromJSON (.obj [("a", .num 1)]) true) :=
  ⟨claim_C1_amended.2.1 Int Int _ _ 2 20 (by decide),
   claim_C1_amended.2.2.1 Int Int _ _ 1 (by decide),
   claim_C1_amended.2.2.2.2.1 Int Int _ _ _ (by decide),
   claim_C1_amended.2.2.2.2.2.2 true _ (.obj [("a", .num 1)]) inv_empty⟩

/-- C9 (confirmed): overwriting an existing key at index `i` (with the
parallel arrays aligned, invariant I1) twice leaves the key at index `i`,
never touches the `keys` array, keeps its length, and makes `get` return
the last value written. -/
theorem claim_C9 {K V : Type} [DecidableEq K] (m : TSMap K V) (k : K) (v1 v2 : V) (i : Nat)
    (hi : indexOfO m._keys k = some i) (hlen : m._keys.length = m._values.length) :
    ((m.set k v1).set k v2)._keys = m._keys
    ∧ indexOfO ((m.set k v1).set k v2)._keys k = some i
    ∧ ((m.set k v1).set k v2).get? k = some v2
    ∧ ((m.set k v1).set k v2)._keys.length = m._keys.length := by
  have hstep : ∀ v : V, m.set k v = { m with _values := m._values.set i v } := by
    intro v; unfold TSMap.set; rw [hi]
  have hstep2 : ({ m with _values := m._values.set i v1 } : TSMap K V).set k v2
      = { m with _values := (m._values.set i v1).set i v2 } := by
    unfold TSMap.set; rw [hi]
  rw [hstep v1, hstep2, List.set_set]
  refine ⟨rfl, hi, ?_, rfl⟩
  unfold TSMap.get?
  rw [hi]
  show (m._values.set i v2)[i]? = some v2
  rw [List.getElem?_set]
  have hlt := (indexOfO_spec hi).1
  rw [if_pos rfl, if_pos (by omega)]

/-- C3 (confirmed): on a map obeying the data model (distinct keys), a
`sortedSet(key, value, start, end)` call with `key == keys[start]`
(resp. `key == keys[end]`) splices `value` into the values array at
index `start` (resp. `end`) and leaves the keys array completely
unchanged, so the values array grows by one while the keys array does
not. -/
theorem claim_C3 {K V : Type} [DecidableEq K] [LinearOrder K]
    (m : TSMap K V) (k : K) (v : V) (s e : Nat) (hnd : m._keys.Nodup) :
    (m._keys[s]? = some k →
        m.sortedSet k v (some s) (some e) = { m with _values := spliceIns s v m._values })
    ∧ (m._keys[e]? = some k →
        m.sortedSet k v (some s) (some e) = { m with _values := spliceIns e v m._values })
    ∧ ((m._keys[s]? = some k ∨ m._keys[e]? = some k) →
        (m.sortedSet k v (some s) (some e))._keys = m._keys
        ∧ (m.sortedSet k v (some s) (some e))._values.length = m._values.length + 1) := by
  by_cases h0 : m._keys.length = 0
  · have hnil : m._keys = [] := List.length_eq_zero.1 h0
    refine ⟨?_, ?_, ?_⟩ <;> intro h <;> simp [hnil] at h
  · have hrun : m.sortedSet k v (some s) (some e) = sortedSetRec k v m s e := by
      unfold TSMap.sortedSet
      simp [h0]
    have hstart : m._keys[s]? = some k →
        sortedSetRec k v m s e = { m with _values := spliceIns s v m._values } := by
      intro hs
      rw [sortedSetRec, if_pos (optEqK_true_iff.2 hs)]
    have hend : m._keys[e]? = some k →
        sortedSetRec k v m s e = { m with _values := spliceIns e v m._values } := by
      intro he
      by_cases hs : m._keys[s]? = some k
      · -- both boundaries match: distinct keys force s = e
        have hslt : s < m._keys.length := (List.getElem?_eq_some.1 hs).1
        have helt : e < m._keys.length := (List.getElem?_eq_some.1 he).1
        have hse : s = e := by
          have hks : m._keys[s] = k := (List.getElem?_eq_some.1 hs).2
          have hke : m._keys[e] = k := (List.getElem?_eq_some.1 he).2
          exact (hnd.getElem_inj_iff).1 (hks.trans hke.symm)
        subst hse
        exact hstart hs
      · have hsne : optEqK k m._keys[s]? = false := by
          rcases hx : m._keys[s]? with _ | x
          · rfl
          · have : ¬ k = x := fun hkx => hs (by rw [hx, hkx])
            simpa [optEqK] using this
        rw [sortedSetRec, if_neg (by simp [hsne]), if_pos (optEqK_true_iff.2 he)]
    refine ⟨fun hs => by rw [hrun]; exact hstart hs,
            fun he => by rw [hrun]; exact hend he, ?_⟩
    intro hor
    rcases hor with hs | he
    · rw [hrun, hstart hs]
      exact ⟨rfl, spliceIns_length _ _ _⟩
    · rw [hrun, hend he]
      exact ⟨rfl, spliceIns_length _ _ _⟩

/-- Witness for C3 at a concrete input: on the map `{1 ↦ 10, 5 ↦ 20}`,
`sortedSet(5, 99, 0, 1)` matches at `end` and splices only the values
array. -/
theorem claim_C3_witness :
    (⟨[1, 5], [10, 20], 2⟩ : TSMap Int Int)._keys.Nodup
    ∧ ((⟨[1, 5], [10, 20], 2⟩ : TSMap Int Int)._keys[1]? = some 5)
    ∧ (⟨[1, 5], [10, 20], 2⟩ : TSMap Int Int).sortedSet 5 99 (some 0) (some 1)
        = ⟨[1, 5], [10, 99, 20], 2⟩ :=
  ⟨by decide, by decide, by
    have h := (claim_C3 (⟨[1, 5], [10, 20], 2⟩ : TSMap Int Int) 5 99 0 1 (by decide)).2.1
      (by decide)
    rw [h]
    decide⟩

/-- Witness for C9 at a concrete input. -/
theorem claim_C9_witness :
    indexOfO (⟨[7], [10], 1⟩ : TSMap Int Int)._keys 7 = some 0
    ∧ (⟨[7], [10], 1⟩ : TSMap Int Int)._keys.length
        = (⟨[7], [10], 1⟩ : TSMap Int Int)._values.length
    ∧ (((⟨[7], [10], 1⟩ : TSMap Int Int).set 7 50).set 7 99).get? 7 = some 99 :=
  ⟨by decide, by decide,
   (claim_C9 ⟨[7], [10], 1⟩ 7 50 99 0 (by decide) (by decide)).2.2.1⟩

/-- Splicing an element into a list is a permutation of consing it. -/
theorem perm_insertIdx {α : Type} (x : α) :
    ∀ (p : Nat) (l : List α), p ≤ l.length → (l.insertIdx p x).Perm (x :: l) := by
  intro p
  induction p with
  | zero => intro l _; rw [List.insertIdx_zero]
  | succ q ih =>
      intro l hp
      cases l with
      | nil => simp at hp
      | cons y ys =>
          rw [List.insertIdx_succ_cons]
          exact ((ih ys (by simpa using hp)).cons y).trans (List.Perm.swap x y ys)

/-- The binary-search core of `sortedSet`: on a strictly sorted key array
not containing `key`, with a search window `[s, e]` whose outside is
already known to be strictly below (left) and above (right) `key`, the
recursion splices `key` into the key array at a position bounded by
strictly smaller elements on the left and strictly larger ones on the
right. -/
theorem sortedSetRec_keys {K V : Type} [DecidableEq K] [LinearOrder K]
    (key : K) (value : V) (m : TSMap K V)
    (hsort : m._keys.Sorted (· < ·)) (hmem : key ∉ m._keys) :
    ∀ s e : Nat, s ≤ e → e < m._keys.length →
      (∀ i, (_ : i < m._keys.length) → i < s → m._keys[i] < key) →
      (∀ i, (_ : i < m._keys.length) → e < i → key < m._keys[i]) →
      ∃ p, p ≤ m._keys.length
        ∧ (sortedSetRec key value m s e)._keys = m._keys.insertIdx p key
        ∧ (∀ i, (_ : i < m._keys.length) → i < p → m._keys[i] < key)
        ∧ (∀ i, (_ : i < m._keys.length) → p ≤ i → key < m._keys[i]) := by
  have hpw := List.pairwise_iff_getElem.1 hsort
  intro s e
  induction s, e using sortedSetRec.induct key value m with
  | case1 s e h1 =>
      intro hse hlt _ _
      exfalso
      have hs : m._keys[s]? = some key := optEqK_true_iff.1 h1
      rcases List.getElem?_eq_some.1 hs with ⟨hsl, hkey⟩
      exact hmem (hkey ▸ List.getElem_mem hsl)
  | case2 s e h1 h2 =>
      intro hse hlt _ _
      exfalso
      have hs : m._keys[e]? = some key := optEqK_true_iff.1 h2
      rcases List.getElem?_eq_some.1 hs with ⟨hsl, hkey⟩
      exact hmem (hkey ▸ List.getElem_mem hsl)
  | case3 s e h1 h2 h3 =>
      intro hse hlt hpre hsuf
      rcases optGtK_true_iff.1 h3 with ⟨x, hx, hxlt⟩
      rcases List.getElem?_eq_some.1 hx with ⟨hel, hxval⟩
      refine ⟨e + 1, by omega, ?_, ?_, ?_⟩
      · rw [sortedSetRec]
        simp only [h1, h2, h3, Bool.false_eq_true, if_false, if_true]
        show spliceIns (e + 1) key m._keys = m._keys.insertIdx (e + 1) key
        unfold spliceIns
        rw [Nat.min_eq_left (by omega)]
      · intro i hi hilt
        rcases Nat.lt_or_ge i e with hie | hie
        · exact lt_of_lt_of_le (hpw i e hi hel hie) (le_of_lt (hxval ▸ hxlt))
        · have : i = e := by omega
          subst this
          exact hxval ▸ hxlt
      · intro i hi hile
        exact hsuf i hi (by omega)
  | case4 s e h1 h2 h3 h4 =>
      intro hse hlt hpre hsuf
      rcases optLtK_true_iff.1 h4 with ⟨x, hx, hxlt⟩
      rcases List.getElem?_eq_some.1 hx with ⟨hsl, hxval⟩
      refine ⟨s, by omega, ?_, ?_, ?_⟩
      · rw [sortedSetRec]
        simp only [h1, h2, h3, h4, Bool.false_eq_true, if_false, if_true]
        show spliceIns s key m._keys = m._keys.insertIdx s key
        unfold spliceIns
        rw [Nat.min_eq_left (by omega)]
      · intro i hi hilt
        exact hpre i hi hilt
      · intro i hi hile
        rcases Nat.lt_or_ge s i with hsi | hsi
        · exact lt_trans (hxval ▸ hxlt) (hpw s i hsl hi hsi)
        · have : i = s := by omega
          subst this
          exact hxval ▸ hxlt
  | case5 s e h1 h2 h3 h4 h5 =>
      intro hse hlt hpre hsuf
      exfalso
      have hes : s = e := by omega
      subst hes
      have hsl : s < m._keys.length := by omega
      have hne : ¬ key = m._keys[s] := by
        intro hkey
        exact h1 (optEqK_true_iff.2 (by rw [List.getElem?_eq_getElem hsl, hkey]))
      have hngt : ¬ m._keys[s] < key := by
        intro hgt
        exact h3 (optGtK_true_iff.2 ⟨m._keys[s], List.getElem?_eq_getElem hsl, hgt⟩)
      have hnlt : ¬ key < m._keys[s] := by
        intro hltk
        exact h4 (optLtK_true_iff.2 ⟨m._keys[s], List.getElem?_eq_getElem hsl, hltk⟩)
      rcases lt_trichotomy key m._keys[s] with h | h | h
      · exact hnlt h
      · exact hne h
      · exact hngt h
  | case6 s e h1 h2 h3 h4 h5 mid h6 ih =>
      intro hse hlt hpre hsuf
      have hslt : s < e := by omega
      have hmid : s ≤ mid ∧ mid < e := by
        constructor <;> · simp only [mid]; omega
      have hmidl : mid < m._keys.length := by omega
      rcases optLtK_true_iff.1 h6 with ⟨x, hx, hxlt⟩
      have hxval : x = m._keys[mid] := by
        rw [List.getElem?_eq_getElem hmidl] at hx
        exact (Option.some.injEq _ _ ▸ hx).symm
      subst hxval
      -- key is strictly above keys[s]
      have hsl : s < m._keys.length := by omega
      have hgt_s : m._keys[s] < key := by
        have hne : ¬ key = m._keys[s] := by
          intro hkey
          exact h1 (optEqK_true_iff.2 (by rw [List.getElem?_eq_getElem hsl, hkey]))
        have hnlt : ¬ key < m._keys[s] := by
          intro hltk
          exact h4 (optLtK_true_iff.2 ⟨m._keys[s], List.getElem?_eq_getElem hsl, hltk⟩)
        rcases lt_trichotomy key m._keys[s] with h | h | h
        · exact absurd h hnlt
        · exact absurd h hne
        · exact h
      have hmids : s < mid := by
        rcases Nat.lt_or_ge s mid with h | h
        · exact h
        · exfalso
          have hms : mid = s := by omega
          have hq : m._keys[mid]? = m._keys[s]? := by rw [hms]
          have hv : m._keys[mid] = m._keys[s] := by
            rw [List.getElem?_eq_getElem hmidl, List.getElem?_eq_getElem hsl] at hq
            exact Option.some.inj hq
          rw [hv] at hxlt
          exact absurd hxlt (not_lt_of_gt hgt_s)
      rcases ih (by omega) (by omega) hpre
          (fun i hi hgt => lt_of_lt_of_le hxlt
            (by
              rcases Nat.lt_or_ge mid i with h | h
              · exact le_of_lt (hpw mid i hmidl hi h)
              · have : i = mid := by omega
                subst this
                exact le_refl _)) with ⟨p, hp, hkeys, hpre', hsuf'⟩
      refine ⟨p, hp, ?_, hpre', hsuf'⟩
      rw [sortedSetRec]
      simp only [h1, h2, h3, h4, h5, Bool.false_eq_true, if_false, dite_eq_ite, if_true]
      simp only [h6, if_true]
      exact hkeys
  | case7 s e h1 h2 h3 h4 h5 mid h6 h7 ih =>
      intro hse hlt hpre hsuf
      have hslt : s < e := by omega
      have hmid : s ≤ mid ∧ mid < e := by
        constructor <;> · simp only [mid]; omega
      have hmidl : mid < m._keys.length := by omega
      rcases optGtK_true_iff.1 h7 with ⟨x, hx, hxlt⟩
      have hxval : x = m._keys[mid] := by
        rw [List.getElem?_eq_getElem hmidl] at hx
        exact (Option.some.injEq _ _ ▸ hx).symm
      subst hxval
      rcases ih (by omega) (by omega)
          (fun i hi hilt => by
            rcases Nat.lt_or_ge i mid with h | h
            · exact lt_trans (hpw i mid hi hmidl h) hxlt
            · have : i = mid := by omega
              subst this
              exact hxlt)
          (fun i hi hgt => hsuf i hi hgt) with ⟨p, hp, hkeys, hpre', hsuf'⟩
      refine ⟨p, hp, ?_, hpre', hsuf'⟩
      rw [sortedSetRec]
      simp only [h1, h2, h3, h4, h5, Bool.false_eq_true, if_false, dite_eq_ite, if_true]
      simp only [h6, h7, Bool.false_eq_true, if_false, if_true]
      exact hkeys
  | case8 s e h1 h2 h3 h4 h5 mid h6 h7 =>
      intro hse hlt hpre hsuf
      exfalso
      have hslt : s < e := by omega
      have hmidlt : mid < e := by simp only [mid]; omega
      have hmidl : mid < m._keys.length := by omega
      have hne : ¬ key = m._keys[mid] := by
        intro hkey
        refine hmem ?_
        exact hkey ▸ List.getElem_mem hmidl
      have hnlt : ¬ key < m._keys[mid] := by
        intro h
        exact absurd (optLtK_true_iff.2 ⟨m._keys[mid], List.getElem?_eq_getElem hmidl, h⟩) h6
      have hngt : ¬ m._keys[mid] < key := by
        intro h
        exact absurd (optGtK_true_iff.2 ⟨m._keys[mid], List.getElem?_eq_getElem hmidl, h⟩) h7
      rcases lt_trichotomy key m._keys[mid] with h | h | h
      · exact hnlt h
      · exact hne h
      · exact hngt h



/-- Inserting at a position whose left part is strictly below and right
part strictly above the new element preserves strict sortedness. -/
theorem sorted_insertIdx {K : Type} [LinearOrder K] {key : K} :
    ∀ (p : Nat) (l : List K), p ≤ l.length → l.Sorted (· < ·) →
      (∀ i, (_ : i < l.length) → i < p → l[i] < key) →
      (∀ i, (_ : i < l.length) → p ≤ i → key < l[i]) →
      (l.insertIdx p key).Sorted (· < ·) := by
  intro p
  induction p with
  | zero =>
      intro l _ hsort _ hsuf
      rw [List.insertIdx_zero, List.sorted_cons]
      refine ⟨?_, hsort⟩
      intro b hb
      rcases List.mem_iff_getElem.1 hb with ⟨i, hi, rfl⟩
      exact hsuf i hi (Nat.zero_le i)
  | succ q ih =>
      intro l hp hsort hpre hsuf
      cases l with
      | nil => simp at hp
      | cons x xs =>
          rw [List.insertIdx_succ_cons, List.sorted_cons]
          have hq : q ≤ xs.length := by simpa using hp
          have hsx := (List.sorted_cons.1 hsort).1
          have hsxs := (List.sorted_cons.1 hsort).2
          constructor
          · intro b hb
            rcases (List.mem_insertIdx hq).1 hb with rfl | hb'
            · exact hpre 0 (by simp) (Nat.succ_pos q)
            · exact hsx b hb'
          · refine ih xs hq hsxs ?_ ?_
            · intro i hi hiq
              have := hpre (i + 1) (by simpa using Nat.succ_lt_succ hi) (Nat.succ_lt_succ hiq)
              simpa using this
            · intro i hi hqi
              have := hsuf (i + 1) (by simpa using Nat.succ_lt_succ hi) (Nat.succ_le_succ hqi)
              simpa using this

/-- A default-argument `sortedSet` call with a fresh key on a strictly
sorted map keeps the key array strictly sorted and extends it by exactly
that key. -/
theorem sortedSet_insert {K V : Type} [DecidableEq K] [LinearOrder K]
    (m : TSMap K V) (key : K) (value : V)
    (hsort : m._keys.Sorted (· < ·)) (hmem : key ∉ m._keys) :
    (m.sortedSet key value none none)._keys.Sorted (· < ·)
    ∧ (m.sortedSet key value none none)._keys.Perm (key :: m._keys) := by
  by_cases h0 : m._keys.length = 0
  · have hnil : m._keys = [] := List.length_eq_zero.1 h0
    unfold TSMap.sortedSet
    rw [if_pos h0]
    constructor
    · simp [hnil, List.sorted_singleton]
    · simp [hnil]
  · have hrun : m.sortedSet key value none none
        = sortedSetRec key value m 0 (m._keys.length - 1) := by
      unfold TSMap.sortedSet
      rw [if_neg h0]
      rfl
    rcases sortedSetRec_keys key value m hsort hmem 0 (m._keys.length - 1)
        (by omega) (by omega)
        (fun i hi hlt => absurd hlt (Nat.not_lt_zero i))
        (fun i hi hgt => by omega) with ⟨p, hp, hkeys, hpre, hsuf⟩
    rw [hrun, hkeys]
    exact ⟨sorted_insertIdx p m._keys hp hsort hpre hsuf, perm_insertIdx key p m._keys hp⟩

/-- Folding `sortedSet` calls with pairwise-fresh keys over a sorted map
keeps the key array strictly sorted. -/
theorem sortedRun_from {K V : Type} [DecidableEq K] [LinearOrder K] :
    ∀ (l : List (K × V)) (m : TSMap K V), m._keys.Sorted (· < ·) →
      (m._keys ++ l.map Prod.fst).Nodup →
      (l.foldl (fun m kv => m.sortedSet kv.1 kv.2 none none) m)._keys.Sorted (· < ·) := by
  intro l
  induction l with
  | nil => intro m hs _; exact hs
  | cons kv rest ih =>
      intro m hs hnd
      rcases kv with ⟨k, v⟩
      have hperm0 : (m._keys ++ k :: rest.map Prod.fst).Perm
          (k :: (m._keys ++ rest.map Prod.fst)) := List.perm_middle
      have hnd' : (k :: (m._keys ++ rest.map Prod.fst)).Nodup := hperm0.nodup (by simpa using hnd)
      have hknotin : k ∉ m._keys := by
        have hnin := (List.nodup_cons.1 hnd').1
        intro hk
        exact hnin (List.mem_append.2 (Or.inl hk))
      rcases sortedSet_insert m k v hs hknotin with ⟨hs', hperm⟩
      refine ih _ hs' ?_
      -- nodup of new keys ++ rest
      have h1 : ((m.sortedSet k v none none)._keys ++ rest.map Prod.fst).Perm
          ((k :: m._keys) ++ rest.map Prod.fst) := hperm.append_right _
      refine h1.symm.nodup ?_
      simpa using hnd'



/-- C2 (confirmed): for every sequence of default-argument `sortedSet`
calls on an initially empty map with pairwise-distinct totally ordered
keys, `keys()` ends strictly ascending; in particular
`sortedSet(5,"x"); sortedSet(1,"y"); sortedSet(9,"z")` on an empty map
yields `keys() == [1, 5, 9]`. -/
theorem claim_C2 :
    (∀ (K V : Type) (_instE : DecidableEq K) (_instL : LinearOrder K) (l : List (K × V)),
        (l.map Prod.fst).Nodup → (sortedRun l)._keys.Sorted (· < ·))
    ∧ (sortedRun [((5 : Int), "x"), (1, "y"), (9, "z")])._keys = [1, 5, 9] := by
  constructor
  · intro K V _instE _instL l hnd
    exact sortedRun_from l TSMap.empty (by simp [TSMap.empty]) (by simpa [TSMap.empty] using hnd)
  · show (((TSMap.empty.sortedSet 5 "x" none none).sortedSet 1 "y" none none).sortedSet
        9 "z" none none : TSMap Int String)._keys = [1, 5, 9]
    simp [TSMap.sortedSet, sortedSetRec, TSMap.empty, spliceIns,
      optEqK, optLtK, optGtK]

/-- Witness for C2 at the concrete insertion sequence of the claim. -/
theorem claim_C2_witness :
    (([((5 : Int), "x"), (1, "y"), (9, "z")]).map Prod.fst).Nodup
    ∧ (sortedRun [((5 : Int), "x"), (1, "y"), (9, "z")])._keys.Sorted (· < ·) :=
  ⟨by decide, claim_C2.1 Int String _ _ _ (by decide)⟩


/-- C6 (corrected) — counterexample: `undefined` is itself a storable
value, so `get`'s miss result is not a distinguished absent-marker.  The
map `{k ↦ undefined}` has `k` present (`has` is true) while the empty
map does not, yet `get(k)` returns the same `undefined` on both. -/
theorem claim_C6_cex :
    (TSMap.set TSMap.empty "k" JVal.undefined : TSMapJ).has "k" = true
    ∧ (TSMap.empty : TSMapJ).has "k" = false
    ∧ (TSMap.set TSMap.empty "k" JVal.undefined : TSMapJ).jsGet "k"
        = (TSMap.empty : TSMapJ).jsGet "k" :=
  ⟨rfl, rfl, rfl⟩

/-- C6 (amended): `get(key)` returns the value stored at the key's index
when the key is present and `undefined` when it is absent; since
`undefined` is also a legal stored value, `get` alone does not
distinguish "absent" from "present with `undefined`" (`has` does). -/
theorem claim_C6_amended (m : TSMapJ) (k : String) :
    (∀ (i : Nat) (v : JVal),
        indexOfO m._keys k = some i → m._values[i]? = some v → m.jsGet k = v)
    ∧ (m.has k = false → m.jsGet k = JVal.undefined) := by
  constructor
  · intro i v hi hv
    unfold TSMap.jsGet TSMap.get?
    rw [hi]
    show (m._values[i]?).getD JVal.undefined = v
    rw [hv]
    rfl
  · intro h
    unfold TSMap.has at h
    unfold TSMap.jsGet TSMap.get?
    cases hidx : indexOfO m._keys k with
    | none => rfl
    | some i => rw [hidx] at h; simp at h

/-- Witness for the amended C6 at concrete inputs. -/
theorem claim_C6_witness :
    indexOfO (TSMap.set TSMap.empty "k" (JVal.num 1) : TSMapJ)._keys "k" = some 0
    ∧ (TSMap.set TSMap.empty "k" (JVal.num 1) : TSMapJ)._values[0]? = some (JVal.num 1)
    ∧ (TSMap.set TSMap.empty "k" (JVal.num 1) : TSMapJ).jsGet "k" = JVal.num 1
    ∧ (TSMap.empty : TSMapJ).has "q" = false
    ∧ (TSMap.empty : TSMapJ).jsGet "q" = JVal.undefined :=
  ⟨rfl, rfl, (claim_C6_amended (TSMap.set TSMap.empty "k" (JVal.num 1)) "k").1 0 _ rfl rfl,
   rfl, (claim_C6_amended TSMap.empty "q").2 rfl⟩

/-- C5 (code_bug) — evaluation at the failing input: `fromJSON({a: [1]},
true)` stores at `"a"` a nested map with the single key `"0"`, not the
array `[1]` with elements converted in place.  The array is swallowed by
the `typeof value === 'object'` branch of `setProperty`, which also
matches arrays, so the dedicated `Array.isArray` branch the claim
describes is unreachable. -/
theorem claim_C5 :
    (TSMap.fromJSON TSMap.empty (.obj [("a", .arr [.num 1])]) true).jsGet "a"
      = JVal.vmap ["0"] [.num 1] 1
    ∧ (TSMap.fromJSON TSMap.empty (.obj [("a", .arr [.num 1])]) true).jsGet "a"
        ≠ JVal.arr [.num 1] := by
  have h : (TSMap.fromJSON TSMap.empty (.obj [("a", .arr [.num 1])]) true).jsGet "a"
      = JVal.vmap ["0"] [.num 1] 1 := by
    simp [TSMap.fromJSON, fromJFold, setProp, setPropList, fromJEmpty, jsEntries, arrEntries,
      isObjTy, isArr, arrElems, TSMap.set, TSMap.empty, indexOfO, JVal.ofM, TSMap.jsGet,
      TSMap.get?, show toString (0 : Nat) = "0" from rfl]
  refine ⟨h, ?_⟩
  rw [h]
  intro hfalse
  exact JVal.noConfusion hfalse

/-- C8 (code_bug) — evaluation at the failing input: for the reachable
map `{a ↦ [1]}` (whose value is a JSON-representable container),
`fromJSON(toJSON(x), true)` does not reconstruct an equivalent map: the
array value comes back as a nested map keyed by `"0"`, a different value
than the stored array.  The failure is exactly the unreachable
`Array.isArray` branch of C5. -/
theorem claim_C8 :
    (TSMap.set TSMap.empty "a" (JVal.arr [.num 1]) : TSMapJ)
      = ⟨["a"], [.arr [.num 1]], 1⟩
    ∧ (⟨["a"], [.arr [.num 1]], 1⟩ : TSMapJ).toJSON = .obj [("a", .arr [.num 1])]
    ∧ (TSMap.fromJSON TSMap.empty ((⟨["a"], [.arr [.num 1]], 1⟩ : TSMapJ).toJSON) true).jsGet "a"
        = JVal.vmap ["0"] [.num 1] 1
    ∧ (⟨["a"], [.arr [.num 1]], 1⟩ : TSMapJ).jsGet "a" = JVal.arr [.num 1]
    ∧ JVal.vmap ["0"] [.num 1] 1 ≠ JVal.arr [.num 1] := by
  have htj : (⟨["a"], [.arr [.num 1]], 1⟩ : TSMapJ).toJSON = .obj [("a", .arr [.num 1])] := by
    simp [TSMap.toJSON, toJSONFold, getValue, getValueList, objAssign, TSMap.jsGet,
      TSMap.get?, indexOfO]
  refine ⟨rfl, htj, ?_, rfl, fun hfalse => JVal.noConfusion hfalse⟩
  rw [htj]
  simp [TSMap.fromJSON, fromJFold, setProp, setPropList, fromJEmpty, jsEntries, arrEntries,
    isObjTy, isArr, arrElems, TSMap.set, TSMap.empty, indexOfO, JVal.ofM, TSMap.jsGet,
    TSMap.get?, show toString (0 : Nat) = "0" from rfl]

/-- C4 (code_bug) — evaluation at the failing input: `clone()` is
`new TSMap(this.entries())`, and `entries()` copies values by reference,
so for the reachable map `{x ↦ ref 0}` (a nested map stored by
reference, heap cell `0` holding `{y ↦ 1}`) the clone stores the very
same reference `ref 0`.  Mutating the nested map through the clone is a
heap update at address `0` (`{y ↦ 2}` below), after which the original
map — never touched itself — reads `y = 2` through `x`: the clone shares
mutable storage with the original. -/
theorem claim_C4 :
    (TSMap.set TSMap.empty "x" (HVal.ref 0) : TSMapH) = ⟨["x"], [.ref 0], 1⟩
    ∧ (⟨["x"], [.ref 0], 1⟩ : TSMapH).clone.hGet "x" = HVal.ref 0
    ∧ (⟨["x"], [.ref 0], 1⟩ : TSMapH).hGet "x" = HVal.ref 0
    ∧ heapRead [⟨["y"], [1], 1⟩] (⟨["x"], [.ref 0], 1⟩ : TSMapH) "x" "y" = some 1
    ∧ heapRead [TSMap.set (⟨["y"], [1], 1⟩ : TSMap String Int) "y" 2]
        (⟨["x"], [.ref 0], 1⟩ : TSMapH).clone "x" "y" = some 2
    ∧ heapRead [TSMap.set (⟨["y"], [1], 1⟩ : TSMap String Int) "y" 2]
        (⟨["x"], [.ref 0], 1⟩ : TSMapH) "x" "y" = some 2 :=
  ⟨rfl, rfl, rfl, rfl, rfl, rfl⟩

end TSSpec
